import Mathlib

/-!
Verification development for the sub2anki repository.

The embedding below translates, from the source:
  * the character/string utilities used by the templates' JavaScript
    (`checkTyping` in `CUSTOM_FRONT_TEMPLATE`, identical in
    `src/audio.py` and `src/template.py`) and by the Python pipeline;
  * the mistake-ledger operations of the card state machine
    (a JavaScript object keyed by reference word, modelled as an
    insertion-ordered association list, which matches JS string-keyed
    object semantics);
  * the subtitle parsers `parse_lrc` and `parse_srt` and the pure part
    of the segment/note planning loop of `create_anki_deck`.

Whitespace is modelled as the set {space, newline, tab, carriage
return}, an ASCII approximation of both Python's `str.strip` class and
the JavaScript `\s` class; `toLower`/`isAlphanum` are the ASCII
versions of `toLowerCase`/`str.isalnum`.  All concrete inputs used in
the theorems are ASCII, where these classes agree with the source
semantics.
-/

namespace Sub2Anki

/-! ## Character and string helpers -/

def isWsChar (c : Char) : Bool :=
  c == ' ' || c == '\n' || c == '\t' || c == '\r'

/-- Removes leading whitespace (front half of Python `strip` / JS `trim`). -/
def trimLeftC (l : List Char) : List Char :=
  l.dropWhile isWsChar

/-- Removes trailing whitespace (back half of Python `strip` / JS `trim`). -/
def trimRightC (l : List Char) : List Char :=
  (l.reverse.dropWhile isWsChar).reverse

/-- Python `str.strip()` / JS `String.prototype.trim()`. -/
def trimC (l : List Char) : List Char :=
  trimRightC (trimLeftC l)

def trimS (s : String) : String :=
  ⟨trimC s.data⟩

/-- Splits into maximal runs of non-whitespace characters.  This is JS
`.split(/\s+/)` for strings with no leading whitespace (the templates
always `trim()` first); empty pieces never occur. -/
def splitWsAux : List Char → List Char → List (List Char)
  | acc, [] => if acc = [] then [] else [acc.reverse]
  | acc, c :: r =>
    if isWsChar c then
      if acc = [] then splitWsAux [] r else acc.reverse :: splitWsAux [] r
    else
      splitWsAux (c :: acc) r

def splitWsC (l : List Char) : List (List Char) :=
  splitWsAux [] l

def splitWsS (s : String) : List String :=
  (splitWsC s.data).map (fun l => ⟨l⟩)

/-- JS `rawInput.endsWith(' ') || rawInput.endsWith('\n')` from `checkTyping`. -/
def endsSpNl (s : String) : Bool :=
  match s.data.getLast? with
  | some c => c == ' ' || c == '\n'
  | none => false

/-- JS `value.endsWith(" ")` used by the hint separator logic. -/
def endsSp (s : String) : Bool :=
  s.data.getLast? == some ' '

/-- Grading normalization from `checkTyping`:
`word.toLowerCase().replace(/[.,!?"]$/, "")` — lowercase, then strip a
single trailing sentence-punctuation character. -/
def normWord (w : String) : String :=
  let l := w.data.map Char.toLower
  ⟨match l.getLast? with
   | some c => if c == '.' || c == ',' || c == '!' || c == '?' || c == '"' then l.dropLast else l
   | none => l⟩

/-- Back-template word cleaning:
`word.toLowerCase().replace(/[.,!?";]/g, '')` — lowercase and remove
every punctuation occurrence (note the extra semicolon, and that all
occurrences are removed, unlike `normWord`). -/
def cleanBack (w : String) : String :=
  ⟨(w.data.map Char.toLower).filter
    (fun c => !(c == '.' || c == ',' || c == '!' || c == '?' || c == '"' || c == ';'))⟩

/-! ## Mistake ledger

The JS `mistakes` object maps a reference word to the array of distinct
incorrect tokens typed for it.  JS objects with string keys preserve
insertion order, so an insertion-ordered association list is a faithful
model. -/

abbrev Ledger := List (String × List String)

def ledgerLookup : Ledger → String → Option (List String)
  | [], _ => none
  | (k', l) :: rest, k => if k' = k then some l else ledgerLookup rest k

/-- JS `if (!mistakes[cw]) mistakes[cw] = []; if (!mistakes[cw].includes(w)) mistakes[cw].push(w)`. -/
def recordMistake : Ledger → String → String → Ledger
  | [], k, w => [(k, [w])]
  | (k', l) :: rest, k, w =>
    if k' = k then
      (if w ∈ l then (k', l) :: rest else (k', l ++ [w]) :: rest)
    else
      (k', l) :: recordMistake rest k w

/-- Whether token `t` is recorded in the ledger entry for key `k`. -/
def ledgerHas (L : Ledger) (k t : String) : Bool :=
  match ledgerLookup L k with
  | some l => decide (t ∈ l)
  | none => false

/-- JS truthiness of `mistakes[k]` (entry arrays are always non-empty,
so truthiness coincides with key presence). -/
def hasKey (L : Ledger) (k : String) : Bool :=
  (ledgerLookup L k).isSome

/-! ## Card state machine (`checkTyping` in the front template) -/

structure CardState where
  placeholders : List Nat
  hintUsed : List Nat
  mistakes : Ledger
  deriving DecidableEq, Repr

def initialCard : CardState := ⟨[], [], []⟩

/-- Reference words: `correctAnswer.trim().split(/\s+/)`.  A
whitespace-only sentence yields the single word `""`, exactly as the JS
split does. -/
def refWords (sentence : String) : List String :=
  let t := trimS sentence
  if t = "" then [""] else splitWsS t

/-- Committed words of the live input: split the trimmed input on
whitespace and, unless the input ends in a space or newline, drop the
final (in-progress) token.  For whitespace-only input JS produces the
single word `""` which the grading loop skips, so the empty list is the
faithful ledger-level result. -/
def committedOf (v : String) : List String :=
  let t := trimS v
  if t = "" then []
  else
    let ws := splitWsS t
    if endsSpNl v then ws else ws.dropLast

/-- The mistake-recording block of the grading body: on a mismatch at a
non-placeholder position, record the raw typed token under the
reference word (deduplicated).  The second component is the recording
event `(position, token)` when a new token was actually recorded. -/
def gradePush (cw : List String) (ph : List Nat) (i : Nat) (w : String) (L : Ledger) :
    Ledger × List (Nat × String) :=
  if ¬ (normWord w = normWord (cw.getD i "")) ∧ i ∉ ph then
    (recordMistake L (cw.getD i "") w,
     if ledgerHas L (cw.getD i "") w then [] else [(i, w)])
  else (L, [])

/-- The hint-marker block of the grading body:
`if (hintUsed[i] && !mistakes[correctWord]) mistakes[correctWord] = ["#"]`. -/
def gradeHint (cw : List String) (hu : List Nat) (i : Nat) (L : Ledger) : Ledger :=
  if i ∈ hu ∧ ledgerLookup L (cw.getD i "") = none then L ++ [(cw.getD i "", ["#"])]
  else L

/-- One iteration of the `completedWords.forEach` grading body for the
committed word `w` at position `i`: empty words are skipped, positions
beyond the reference length record nothing, otherwise the mistake push
runs first and the hint-marker check runs on its result.  Returns the
updated ledger and the recording events of this step. -/
def gradeStep (cw : List String) (ph hu : List Nat) (i : Nat) (w : String) (L : Ledger) :
    Ledger × List (Nat × String) :=
  if w = "" then (L, [])
  else if i < cw.length then
    (gradeHint cw hu i (gradePush cw ph i w L).1, (gradePush cw ph i w L).2)
  else (L, [])

/-- The full grading loop over the committed words, starting at
position `n`. -/
def gradeList (cw : List String) (ph hu : List Nat) : Nat → List String → Ledger →
    Ledger × List (Nat × String)
  | _, [], L => (L, [])
  | n, w :: ws, L =>
    let p := gradeStep cw ph hu n w L
    let q := gradeList cw ph hu (n + 1) ws p.1
    (q.1, p.2 ++ q.2)

/-- The "next ungraded position" computed by the hint block:
`typedWordsBeforeHint[0] === "" ? 0 : typedWordsBeforeHint.length`
where `typedWordsBeforeHint` splits the trimmed remaining input on
whitespace runs. -/
def hintNext (v1 : String) : Nat :=
  if trimS v1 = "" then 0 else (splitWsS (trimS v1)).length

/-- The input value after the hint block appends the revealed word:
`value + (endsWith(" ") || value === "" ? "" : " ") + wordToReveal + " "`. -/
def hintValue (cw : List String) (v1 : String) (next : Nat) : String :=
  v1 ++ (if endsSp v1 || v1 = "" then "" else " ") ++ cw.getD next "" ++ " "

/-- The hint block at the top of `checkTyping`: when the input ends in
`#`, strip it, compute the next ungraded position from the remaining
input, mark it as hint-revealed (if new) and append the revealed
reference word plus a trailing space to the input. -/
def hintPhase (cw : List String) (st : CardState) (value : String) : CardState × String :=
  if value.data.getLast? = some '#' then
    let v1 : String := ⟨value.data.dropLast⟩
    let next := hintNext v1
    if next < cw.length then
      (if next ∈ st.placeholders then st
       else { st with placeholders := st.placeholders ++ [next],
                      hintUsed := st.hintUsed ++ [next] },
       hintValue cw v1 next)
    else (st, v1)
  else (st, value)

/-- One full `checkTyping` pass: hint phase, tokenization, grading.
Returns the new card state, the (possibly hint-extended) input value,
and the typed-mistake recording events of this pass. -/
def checkTyping (cw : List String) (st : CardState) (value : String) :
    CardState × String × List (Nat × String) :=
  let hp := hintPhase cw st value
  let ws := committedOf hp.2
  let r := gradeList cw hp.1.placeholders hp.1.hintUsed 0 ws hp.1.mistakes
  (⟨hp.1.placeholders, hp.1.hintUsed, r.1⟩, hp.2, r.2)

/-- A sequence of grading passes (one per user edit). -/
def runInputs (cw : List String) : CardState → List String → CardState
  | st, [] => st
  | st, v :: vs => runInputs cw (checkTyping cw st v).1 vs

/-- Back-template highlighting: the set of sentence word positions
flagged as mistaken, built from `wordPositions` and `mistakeIndices` in
the back script — position `i` is flagged iff some ledger key cleans to
the same string as word `i`. -/
def backMistakeIndices (ws : List String) (keys : List String) : List Nat :=
  (List.range ws.length).filter
    (fun i => keys.any (fun k => cleanBack (ws.getD i "") == cleanBack k))

/-! ## Data model of the pipeline -/

/-- `SubtitleLine` dataclass from `src/audio.py` (times are Python
ints; `end_time_ms = -1` is the "resolve later" sentinel). -/
structure SubtitleLine where
  start_time_ms : Int
  end_time_ms : Int
  text : String
  translation : Option String
  deriving DecidableEq, Repr

instance : Inhabited SubtitleLine := ⟨⟨0, 0, "", none⟩⟩

/-! ## LRC parser (`parse_lrc`) -/

def digitVal (c : Char) : Nat := c.toNat - 48

/-- Python `"".split("\n")`-style line splitting: always at least one
(possibly empty) piece. -/
def splitLinesC : List Char → List (List Char)
  | [] => [[]]
  | c :: r =>
    if c = '\n' then [] :: splitLinesC r
    else
      match splitLinesC r with
      | h :: t => (c :: h) :: t
      | [] => [[c]]

/-- The preprocessing of `parse_lrc`:
`[line.strip() for line in content.strip().split("\n") if line.strip()]`. -/
def lrcPrepLines (content : String) : List (List Char) :=
  ((splitLinesC (trimC content.data)).map trimC).filter (fun l => !(l == []))

/-- The timestamp regex `^\[(\d{2}):(\d{2})\.(\d{2,3})\](.*)` together
with the millisecond computation of `parse_lrc`: a 2-digit fraction is
multiplied by 10, a 3-digit fraction is taken as milliseconds.  Returns
the start time and the raw text after the closing bracket. -/
def lrcMatch : List Char → Option (Nat × List Char)
  | '[' :: a :: b :: ':' :: c :: d :: '.' :: e :: f :: rest =>
    if a.isDigit && b.isDigit && c.isDigit && d.isDigit && e.isDigit && f.isDigit then
      match rest with
      | g :: rest2 =>
        if g.isDigit then
          match rest2 with
          | br :: text =>
            if br = ']' then
              some ((10 * digitVal a + digitVal b) * 60000
                    + (10 * digitVal c + digitVal d) * 1000
                    + (100 * digitVal e + 10 * digitVal f + digitVal g), text)
            else none
          | [] => none
        else if g = ']' then
          some ((10 * digitVal a + digitVal b) * 60000
                + (10 * digitVal c + digitVal d) * 1000
                + (10 * digitVal e + digitVal f) * 10, rest2)
        else none
      | [] => none
    else none
  | _ => none

/-- One entry of the `timed_lines` list built by the first loop of
`parse_lrc`. -/
structure TimedLine where
  time_ms : Nat
  text : String
  translation : Option String
  deriving DecidableEq, Repr

/-- First loop of `parse_lrc`: walk the prepared lines; a timestamped
line yields a timed entry with stripped text, consuming an immediately
following non-timestamped line as its translation; any other line is
skipped. -/
def lrcCollect : List (List Char) → List TimedLine
  | [] => []
  | [l] =>
    match lrcMatch l with
    | some (t, txt) => [⟨t, ⟨trimC txt⟩, none⟩]
    | none => []
  | l :: nxt :: rest2 =>
    match lrcMatch l with
    | some (t, txt) =>
      if (lrcMatch nxt).isSome then
        ⟨t, ⟨trimC txt⟩, none⟩ :: lrcCollect (nxt :: rest2)
      else
        ⟨t, ⟨trimC txt⟩, some ⟨nxt⟩⟩ :: lrcCollect rest2
    | none => lrcCollect (nxt :: rest2)

/-- Second loop of `parse_lrc`, before the non-empty-text filter: end
time of entry `i` is the start time of entry `i+1`, and the last
entry's end time is the sentinel `-1`. -/
def lrcChain : List TimedLine → List SubtitleLine
  | [] => []
  | t :: rest =>
    ⟨(t.time_ms : Int),
     (match rest with
      | n :: _ => (n.time_ms : Int)
      | [] => -1),
     t.text, t.translation⟩ :: lrcChain rest

/-- `parse_lrc` from `src/audio.py`: preprocessing, the timed-line
loop, the end-time chaining loop with its `if text:` filter. -/
def parse_lrc (content : String) : List SubtitleLine :=
  (lrcChain (lrcCollect (lrcPrepLines content))).filter (fun s => !(s.text == ""))

/-! ## SRT parser (`parse_srt`)

`parse_srt` runs `finditer` with the pattern
`(\d+)\n(\d{2}:\d{2}:\d{2},\d{3}) --> (\d{2}:\d{2}:\d{2},\d{3})\n([\s\S]+?)(?=\n\n\d+\n|\Z)`.
The functions below implement this specific pattern: each quantifier in
it is determinism-safe (the greedy `\d+` groups are always followed by
a non-digit, the lazy text group stops at the first position where the
lookahead holds), so a direct scanner is an exact model. -/

/-- Greedy `\d+` followed by the rest of the input; fails when no digit
is present. -/
def takeDigits1 (l : List Char) : Option (List Char × List Char) :=
  let ds := l.takeWhile Char.isDigit
  if ds = [] then none else some (ds, l.drop ds.length)

/-- `\d{2}:\d{2}:\d{2},\d{3}` plus `srt_time_to_ms`: hours, minutes,
seconds, milliseconds combined as `h*3600000 + m*60000 + s*1000 + ms`. -/
def srtTimestamp : List Char → Option (Nat × List Char)
  | h1 :: h2 :: c1 :: m1 :: m2 :: c2 :: s1 :: s2 :: c3 :: x1 :: x2 :: x3 :: rest =>
    if h1.isDigit && h2.isDigit && c1 = ':' && m1.isDigit && m2.isDigit && c2 = ':'
        && s1.isDigit && s2.isDigit && c3 = ',' && x1.isDigit && x2.isDigit && x3.isDigit then
      some ((10 * digitVal h1 + digitVal h2) * 3600000
            + (10 * digitVal m1 + digitVal m2) * 60000
            + (10 * digitVal s1 + digitVal s2) * 1000
            + (100 * digitVal x1 + 10 * digitVal x2 + digitVal x3), rest)
    else none
  | _ => none

/-- The lookahead `(?=\n\n\d+\n|\Z)`. -/
def srtSep (l : List Char) : Bool :=
  match l with
  | [] => true
  | '\n' :: '\n' :: r =>
    let ds := r.takeWhile Char.isDigit
    !(ds == []) && ((r.drop ds.length).head? == some '\n')
  | _ => false

/-- The lazy text group `([\s\S]+?)` up to the lookahead: consume the
fewest characters (at least one, seeded by the caller) after which
`srtSep` holds. -/
def srtTextScan : List Char → List Char → Option (List Char × List Char)
  | acc, rest =>
    if srtSep rest then some (acc.reverse, rest)
    else
      match rest with
      | [] => none
      | c :: r => srtTextScan (c :: acc) r

def expectChars (pre : List Char) (l : List Char) : Option (List Char) :=
  if l.take pre.length = pre then some (l.drop pre.length) else none

/-- One attempted match of the SRT record pattern at the current
position, returning the record and the remainder after the match (the
lookahead is not consumed).  The first text-block line is the sentence,
the second (when present) the translation, exactly as in `parse_srt`. -/
def srtMatchAt (l : List Char) : Option (SubtitleLine × List Char) :=
  match takeDigits1 l with
  | none => none
  | some (_, r1) =>
    match r1 with
    | '\n' :: r2 =>
      match srtTimestamp r2 with
      | none => none
      | some (t1, r3) =>
        match expectChars [' ', '-', '-', '>', ' '] r3 with
        | none => none
        | some r4 =>
          match srtTimestamp r4 with
          | none => none
          | some (t2, r5) =>
            match r5 with
            | '\n' :: r6 =>
              match r6 with
              | [] => none
              | c :: r7 =>
                match srtTextScan [c] r7 with
                | none => none
                | some (g4, r8) =>
                  let blk := splitLinesC (trimC g4)
                  let text : String := ⟨trimC (blk.getD 0 [])⟩
                  let translation : Option String :=
                    match blk with
                    | _ :: snd :: _ => some ⟨trimC snd⟩
                    | _ => none
                  some (⟨(t1 : Int), (t2 : Int), text, translation⟩, r8)
            | _ => none
    | _ => none

/-- The `finditer` scan: try to match at every position, continuing
after the end of each match.  `fuel` bounds the number of steps; each
step consumes at least one character, so `length + 1` always
suffices. -/
def srtScan : Nat → List Char → List SubtitleLine
  | 0, _ => []
  | _ + 1, [] => []
  | fuel + 1, l =>
    match srtMatchAt l with
    | some (rec, rest) => rec :: srtScan fuel rest
    | none => srtScan fuel (l.drop 1)

/-- `parse_srt` from `src/audio.py`. -/
def parse_srt (content : String) : List SubtitleLine :=
  srtScan (content.data.length + 1) content.data

/-! ## Segment planner (pure part of `create_anki_deck`) -/

/-- One planned note/segment: clip filename, resolved clip interval and
the two text fields. -/
structure NotePlan where
  filename : String
  start_ms : Int
  end_ms : Int
  text : String
  translation : String
  deriving DecidableEq, Repr

/-- `-1` sentinel resolution: `if end_time_ms == -1: end_time_ms = len(audio)`. -/
def resolveEnd (audioLen : Nat) (e : Int) : Int :=
  if e = -1 then (audioLen : Int) else e

/-- Python `f"{n:03d}"`: decimal digits left-padded with zeros to width
at least 3. -/
def pad3 (n : Nat) : String :=
  if n < 10 then "00" ++ toString n
  else if n < 100 then "0" ++ toString n
  else toString n

/-- `safe_text = "".join(c for c in text if c.isalnum() or c in " _-").rstrip()`:
keep alphanumerics, space, underscore and hyphen from the whole text,
then strip trailing whitespace. -/
def sanitizeText (t : String) : String :=
  ⟨trimRightC (t.data.filter (fun c => c.isAlphanum || c == ' ' || c == '_' || c == '-'))⟩

def takeStr (n : Nat) (s : String) : String :=
  ⟨s.data.take n⟩

/-- The note built for subtitle line `line` at 0-based enumeration
index `i`: filename `f"{config.name}_{i+1:03d}_{safe_text[:20]}.mp3"`,
resolved times, text and translation fields. -/
def planNote (name : String) (i : Nat) (line : SubtitleLine) (audioLen : Nat) : NotePlan :=
  { filename := name ++ "_" ++ pad3 (i + 1) ++ "_" ++ takeStr 20 (sanitizeText line.text) ++ ".mp3"
  , start_ms := line.start_time_ms
  , end_ms := resolveEnd audioLen line.end_time_ms
  , text := line.text
  , translation := line.translation.getD "" }

/-- The slicing loop of `create_anki_deck`, pure part: enumerate the
parsed lines, resolve the `-1` sentinel against the audio length, skip
lines whose text strips to empty (the enumeration index still
advances), emit a note for every other line. -/
def planNotesFrom (name : String) : Nat → List SubtitleLine → Nat → List NotePlan
  | _, [], _ => []
  | i, l :: rest, audioLen =>
    if trimS l.text = "" then planNotesFrom name (i + 1) rest audioLen
    else planNote name i l audioLen :: planNotesFrom name (i + 1) rest audioLen

def planNotes (name : String) (subs : List SubtitleLine) (audioLen : Nat) : List NotePlan :=
  planNotesFrom name 0 subs audioLen

/-! ## Ledger lemmas -/

theorem ledgerLookup_append (L M : Ledger) (k : String) :
    ledgerLookup (L ++ M) k =
      match ledgerLookup L k with
      | some l => some l
      | none => ledgerLookup M k := by
  induction L with
  | nil => simp [ledgerLookup]
  | cons p rest ih =>
    obtain ⟨k', l⟩ := p
    by_cases h : k' = k <;> simp [ledgerLookup, h, ih]

theorem ledgerHas_append_left {L : Ledger} {k t : String} (M : Ledger)
    (h : ledgerHas L k t = true) : ledgerHas (L ++ M) k t = true := by
  unfold ledgerHas at h ⊢
  rw [ledgerLookup_append]
  cases hL : ledgerLookup L k with
  | none => rw [hL] at h; exact absurd h (by simp)
  | some l => rw [hL] at h; simpa using h

theorem hasKey_append_left {L : Ledger} {k : String} (M : Ledger)
    (h : hasKey L k = true) : hasKey (L ++ M) k = true := by
  unfold hasKey at h ⊢
  rw [ledgerLookup_append]
  cases hL : ledgerLookup L k with
  | none => rw [hL] at h; simp at h
  | some l => simp

theorem ledgerLookup_recordMistake_self (L : Ledger) (k w : String) :
    ledgerLookup (recordMistake L k w) k =
      some (match ledgerLookup L k with
            | none => [w]
            | some l => if w ∈ l then l else l ++ [w]) := by
  induction L with
  | nil => simp [recordMistake, ledgerLookup]
  | cons p rest ih =>
    obtain ⟨k', l⟩ := p
    by_cases h : k' = k
    · subst h
      by_cases hw : w ∈ l <;> simp [recordMistake, ledgerLookup, hw]
    · simp [recordMistake, ledgerLookup, h, ih]

theorem ledgerLookup_recordMistake_other (L : Ledger) (k w k2 : String) (h : k ≠ k2) :
    ledgerLookup (recordMistake L k w) k2 = ledgerLookup L k2 := by
  induction L with
  | nil => simp [recordMistake, ledgerLookup, h]
  | cons p rest ih =>
    obtain ⟨k', l⟩ := p
    by_cases hk : k' = k
    · subst hk
      by_cases hw : w ∈ l <;> simp [recordMistake, ledgerLookup, h, hw]
    · by_cases hk2 : k' = k2
      · subst hk2; simp [recordMistake, ledgerLookup, hk]
      · simp [recordMistake, ledgerLookup, hk, hk2, ih]

theorem ledgerHas_recordMistake_self (L : Ledger) (k w : String) :
    ledgerHas (recordMistake L k w) k w = true := by
  unfold ledgerHas
  rw [ledgerLookup_recordMistake_self]
  cases hL : ledgerLookup L k with
  | none => simp
  | some l => by_cases hw : w ∈ l <;> simp [hw]

theorem hasKey_recordMistake_self (L : Ledger) (k w : String) :
    hasKey (recordMistake L k w) k = true := by
  unfold hasKey
  rw [ledgerLookup_recordMistake_self]
  simp

theorem ledgerHas_recordMistake_mono {L : Ledger} {k t : String} (k2 w : String)
    (h : ledgerHas L k t = true) : ledgerHas (recordMistake L k2 w) k t = true := by
  by_cases hk : k2 = k
  · subst hk
    unfold ledgerHas at h ⊢
    rw [ledgerLookup_recordMistake_self]
    cases hL : ledgerLookup L k2 with
    | none => rw [hL] at h; simp at h
    | some l =>
      rw [hL] at h
      simp only [decide_eq_true_eq] at h
      by_cases hw : w ∈ l <;> simp [hw, h, List.mem_append]
  · unfold ledgerHas at h ⊢
    rw [ledgerLookup_recordMistake_other L k2 w k hk]
    exact h

theorem hasKey_recordMistake_mono {L : Ledger} {k : String} (k2 w : String)
    (h : hasKey L k = true) : hasKey (recordMistake L k2 w) k = true := by
  by_cases hk : k2 = k
  · subst hk; exact hasKey_recordMistake_self L k2 w
  · unfold hasKey at h ⊢
    rw [ledgerLookup_recordMistake_other L k2 w k hk]
    exact h

theorem recordMistake_eq_of_has {L : Ledger} {k w : String}
    (h : ledgerHas L k w = true) : recordMistake L k w = L := by
  induction L with
  | nil => simp [ledgerHas, ledgerLookup] at h
  | cons p rest ih =>
    obtain ⟨k', l⟩ := p
    by_cases hk : k' = k
    · subst hk
      have hw : w ∈ l := by simpa [ledgerHas, ledgerLookup] using h
      simp [recordMistake, hw]
    · unfold ledgerHas ledgerLookup at h
      rw [if_neg hk] at h
      simp [recordMistake, hk, ih h]

/-! ## Grading-pass lemmas -/

section Grading

variable {cw : List String} {ph hu : List Nat}

theorem gradePush_has_mono {L : Ledger} {k t : String} {i : Nat} {w : String}
    (h : ledgerHas L k t = true) : ledgerHas (gradePush cw ph i w L).1 k t = true := by
  unfold gradePush
  split_ifs with hc hdup
  · exact ledgerHas_recordMistake_mono _ _ h
  · exact ledgerHas_recordMistake_mono _ _ h
  · exact h

theorem gradePush_hasKey_mono {L : Ledger} {k : String} {i : Nat} {w : String}
    (h : hasKey L k = true) : hasKey (gradePush cw ph i w L).1 k = true := by
  unfold gradePush
  split_ifs with hc hdup
  · exact hasKey_recordMistake_mono _ _ h
  · exact hasKey_recordMistake_mono _ _ h
  · exact h

theorem gradeHint_has_mono {L : Ledger} {k t : String} {i : Nat}
    (h : ledgerHas L k t = true) : ledgerHas (gradeHint cw hu i L) k t = true := by
  unfold gradeHint
  split_ifs with hc
  · exact ledgerHas_append_left _ h
  · exact h

theorem gradeHint_hasKey_mono {L : Ledger} {k : String} {i : Nat}
    (h : hasKey L k = true) : hasKey (gradeHint cw hu i L) k = true := by
  unfold gradeHint
  split_ifs with hc
  · exact hasKey_append_left _ h
  · exact h

theorem gradeStep_has_mono {L : Ledger} {k t : String} {i : Nat} {w : String}
    (h : ledgerHas L k t = true) : ledgerHas (gradeStep cw ph hu i w L).1 k t = true := by
  unfold gradeStep
  split_ifs with h1 h2
  · exact h
  · exact gradeHint_has_mono (gradePush_has_mono h)
  · exact h

theorem gradeStep_hasKey_mono {L : Ledger} {k : String} {i : Nat} {w : String}
    (h : hasKey L k = true) : hasKey (gradeStep cw ph hu i w L).1 k = true := by
  unfold gradeStep
  split_ifs with h1 h2
  · exact h
  · exact gradeHint_hasKey_mono (gradePush_hasKey_mono h)
  · exact h

theorem gradeList_has_mono {k t : String} :
    ∀ (ws : List String) (n : Nat) (L : Ledger),
    ledgerHas L k t = true → ledgerHas (gradeList cw ph hu n ws L).1 k t = true := by
  intro ws
  induction ws with
  | nil => intro n L h; exact h
  | cons w ws ih =>
    intro n L h
    show ledgerHas (gradeList cw ph hu (n + 1) ws (gradeStep cw ph hu n w L).1).1 k t = true
    exact ih _ _ (gradeStep_has_mono h)

theorem gradeList_hasKey_mono {k : String} :
    ∀ (ws : List String) (n : Nat) (L : Ledger),
    hasKey L k = true → hasKey (gradeList cw ph hu n ws L).1 k = true := by
  intro ws
  induction ws with
  | nil => intro n L h; exact h
  | cons w ws ih =>
    intro n L h
    show hasKey (gradeList cw ph hu (n + 1) ws (gradeStep cw ph hu n w L).1).1 k = true
    exact ih _ _ (gradeStep_hasKey_mono h)

theorem gradePush_event {L : Ledger} {i j : Nat} {w t : String}
    (h : (j, t) ∈ (gradePush cw ph i w L).2) :
    j = i ∧ t = w ∧ i ∉ ph ∧ ledgerHas (gradePush cw ph i w L).1 (cw.getD i "") w = true := by
  unfold gradePush at h ⊢
  split_ifs at h ⊢ with hc hdup
  · simp at h
  · simp only [List.mem_singleton, Prod.mk.injEq] at h
    exact ⟨h.1, h.2, hc.2, ledgerHas_recordMistake_self _ _ _⟩
  · simp at h

theorem gradeStep_event {L : Ledger} {i j : Nat} {w t : String}
    (h : (j, t) ∈ (gradeStep cw ph hu i w L).2) :
    j = i ∧ t = w ∧ i ∉ ph ∧
      ledgerHas (gradeStep cw ph hu i w L).1 (cw.getD i "") w = true := by
  unfold gradeStep at h ⊢
  split_ifs at h ⊢ with h1 h2
  · simp at h
  · obtain ⟨hj, ht, hph, hhas⟩ := gradePush_event h
    exact ⟨hj, ht, hph, gradeHint_has_mono hhas⟩
  · simp at h

theorem gradeList_event :
    ∀ (ws : List String) (n : Nat) (L : Ledger) (j : Nat) (t : String),
    (j, t) ∈ (gradeList cw ph hu n ws L).2 →
    j ∉ ph ∧ ledgerHas (gradeList cw ph hu n ws L).1 (cw.getD j "") t = true := by
  intro ws
  induction ws with
  | nil => intro n L j t h; simp [gradeList] at h
  | cons w ws ih =>
    intro n L j t h
    have hsplit : (gradeList cw ph hu n (w :: ws) L).2
        = (gradeStep cw ph hu n w L).2
          ++ (gradeList cw ph hu (n + 1) ws (gradeStep cw ph hu n w L).1).2 := rfl
    rw [hsplit] at h
    rcases List.mem_append.1 h with hstep | hrest
    · obtain ⟨hj, ht, hph, hhas⟩ := gradeStep_event hstep
      refine ⟨by rw [hj]; exact hph, ?_⟩
      show ledgerHas (gradeList cw ph hu (n + 1) ws (gradeStep cw ph hu n w L).1).1
        (cw.getD j "") t = true
      rw [hj, ht]
      exact gradeList_has_mono ws (n + 1) _ hhas
    · obtain ⟨hph, hhas⟩ := ih _ _ _ _ hrest
      exact ⟨hph, hhas⟩

theorem gradeList_append :
    ∀ (xs ys : List String) (n : Nat) (L : Ledger),
    gradeList cw ph hu n (xs ++ ys) L =
      ((gradeList cw ph hu (n + xs.length) ys (gradeList cw ph hu n xs L).1).1,
       (gradeList cw ph hu n xs L).2
         ++ (gradeList cw ph hu (n + xs.length) ys (gradeList cw ph hu n xs L).1).2) := by
  intro xs
  induction xs with
  | nil => intro ys n L; simp [gradeList]
  | cons x xs ih =>
    intro ys n L
    have hstep :
        gradeList cw ph hu n ((x :: xs) ++ ys) L
          = ((gradeList cw ph hu (n + 1) (xs ++ ys) (gradeStep cw ph hu n x L).1).1,
             (gradeStep cw ph hu n x L).2
               ++ (gradeList cw ph hu (n + 1) (xs ++ ys) (gradeStep cw ph hu n x L).1).2) := rfl
    have hre :
        gradeList cw ph hu n (x :: xs) L
          = ((gradeList cw ph hu (n + 1) xs (gradeStep cw ph hu n x L).1).1,
             (gradeStep cw ph hu n x L).2
               ++ (gradeList cw ph hu (n + 1) xs (gradeStep cw ph hu n x L).1).2) := rfl
    rw [hstep, ih ys (n + 1) (gradeStep cw ph hu n x L).1, hre]
    have hn : n + (x :: xs).length = n + 1 + xs.length := by
      simp only [List.length_cons]
      omega
    rw [hn]
    simp [List.append_assoc]

theorem gradeStep_fix {L : Ledger} {i : Nat} {w : String}
    (h1 : i < cw.length → w ≠ "" → ¬ normWord w = normWord (cw.getD i "") → i ∉ ph →
          ledgerHas L (cw.getD i "") w = true)
    (h2 : i < cw.length → w ≠ "" → i ∈ hu → hasKey L (cw.getD i "") = true) :
    (gradeStep cw ph hu i w L).1 = L := by
  by_cases hw : w = ""
  · simp [gradeStep, hw]
  · by_cases hlen : i < cw.length
    · unfold gradeStep
      rw [if_neg hw, if_pos hlen]
      show gradeHint cw hu i (gradePush cw ph i w L).1 = L
      have hpush : (gradePush cw ph i w L).1 = L := by
        unfold gradePush
        split_ifs with hc hdup
        · exact recordMistake_eq_of_has (h1 hlen hw hc.1 hc.2)
        · exact recordMistake_eq_of_has (h1 hlen hw hc.1 hc.2)
        · rfl
      rw [hpush]
      unfold gradeHint
      split_ifs with hc
      · exfalso
        have hk := h2 hlen hw hc.1
        unfold hasKey at hk
        rw [hc.2] at hk
        simp at hk
      · rfl
    · simp [gradeStep, hw, hlen]

theorem gradeStep_sat1 {L : Ledger} {i : Nat} {w : String}
    (hlen : i < cw.length) (hw : w ≠ "")
    (hmis : ¬ normWord w = normWord (cw.getD i "")) (hnph : i ∉ ph) :
    ledgerHas (gradeStep cw ph hu i w L).1 (cw.getD i "") w = true := by
  unfold gradeStep
  rw [if_neg hw, if_pos hlen]
  exact gradeHint_has_mono (by
    unfold gradePush
    rw [if_pos ⟨hmis, hnph⟩]
    exact ledgerHas_recordMistake_self _ _ _)

theorem gradeStep_sat2 {L : Ledger} {i : Nat} {w : String}
    (hlen : i < cw.length) (hw : w ≠ "") (hhu : i ∈ hu) :
    hasKey (gradeStep cw ph hu i w L).1 (cw.getD i "") = true := by
  unfold gradeStep
  rw [if_neg hw, if_pos hlen]
  show hasKey (gradeHint cw hu i (gradePush cw ph i w L).1) (cw.getD i "") = true
  unfold gradeHint
  by_cases hnone : ledgerLookup (gradePush cw ph i w L).1 (cw.getD i "") = none
  · rw [if_pos ⟨hhu, hnone⟩]
    unfold hasKey
    rw [ledgerLookup_append, hnone]
    simp [ledgerLookup]
  · rw [if_neg (fun hc => hnone hc.2)]
    unfold hasKey
    cases hl : ledgerLookup (gradePush cw ph i w L).1 (cw.getD i "") with
    | none => exact absurd hl hnone
    | some l => simp

/-- Re-grading the same committed words leaves the ledger unchanged:
every recording the pass would make is already present after the first
pass. -/
theorem gradeList_fix :
    ∀ (ws : List String) (n : Nat) (L : Ledger),
    (gradeList cw ph hu n ws (gradeList cw ph hu n ws L).1).1 = (gradeList cw ph hu n ws L).1 := by
  intro ws
  induction ws with
  | nil => intro n L; rfl
  | cons w ws ih =>
    intro n L
    have hLf : (gradeList cw ph hu n (w :: ws) L).1
        = (gradeList cw ph hu (n + 1) ws (gradeStep cw ph hu n w L).1).1 := rfl
    have hfix : (gradeStep cw ph hu n w (gradeList cw ph hu n (w :: ws) L).1).1
        = (gradeList cw ph hu n (w :: ws) L).1 := by
      apply gradeStep_fix
      · intro hlen hw hmis hnph
        rw [hLf]
        exact gradeList_has_mono ws (n + 1) _ (gradeStep_sat1 hlen hw hmis hnph)
      · intro hlen hw hhu
        rw [hLf]
        exact gradeList_hasKey_mono ws (n + 1) _ (gradeStep_sat2 hlen hw hhu)
    show (gradeList cw ph hu (n + 1) ws
        (gradeStep cw ph hu n w (gradeList cw ph hu n (w :: ws) L).1).1).1
      = (gradeList cw ph hu n (w :: ws) L).1
    rw [hfix, hLf]
    exact ih (n + 1) (gradeStep cw ph hu n w L).1

/-- At a hint-revealed (placeholder) position whose reference word has
no ledger entry yet, grading records the hint marker. -/
theorem gradeStep_placeholder_marker {L : Ledger} {i : Nat} {w : String}
    (hlen : i < cw.length) (hw : w ≠ "") (hph : i ∈ ph) (hhu : i ∈ hu)
    (hnone : ledgerLookup L (cw.getD i "") = none) :
    ledgerHas (gradeStep cw ph hu i w L).1 (cw.getD i "") "#" = true := by
  unfold gradeStep
  rw [if_neg hw, if_pos hlen]
  show ledgerHas (gradeHint cw hu i (gradePush cw ph i w L).1) (cw.getD i "") "#" = true
  have hpush : (gradePush cw ph i w L).1 = L := by
    unfold gradePush
    rw [if_neg (fun hc => hc.2 hph)]
  rw [hpush]
  unfold gradeHint
  rw [if_pos ⟨hhu, hnone⟩]
  unfold ledgerHas
  rw [ledgerLookup_append, hnone]
  simp [ledgerLookup]

/-- At a placeholder position whose reference word already has a
ledger entry, grading changes nothing: the typed mistake is not
recorded and the hint marker is suppressed. -/
theorem gradeStep_placeholder_fix {L : Ledger} {i : Nat} {w : String}
    (hph : i ∈ ph) (hkey : hasKey L (cw.getD i "") = true) :
    (gradeStep cw ph hu i w L).1 = L := by
  by_cases hw : w = ""
  · simp [gradeStep, hw]
  · by_cases hlen : i < cw.length
    · unfold gradeStep
      rw [if_neg hw, if_pos hlen]
      show gradeHint cw hu i (gradePush cw ph i w L).1 = L
      have hpush : (gradePush cw ph i w L).1 = L := by
        unfold gradePush
        rw [if_neg (fun hc => hc.2 hph)]
      rw [hpush]
      unfold gradeHint
      have hne : ledgerLookup L (cw.getD i "") ≠ none := by
        intro he
        unfold hasKey at hkey
        rw [he] at hkey
        simp at hkey
      rw [if_neg (fun hc => hne hc.2)]
    · simp [gradeStep, hw, hlen]

end Grading

/-! ## Hint-phase and full-pass lemmas -/

theorem hintPhase_mistakes (cw : List String) (st : CardState) (v : String) :
    (hintPhase cw st v).1.mistakes = st.mistakes := by
  simp only [hintPhase]
  split_ifs <;> rfl

/-- Running the hint phase again on the same input from any state with
the same placeholder/hint sets is a no-op on the state and produces the
same value: the only state change the phase can make is adding the
`next` position, which is then already present. -/
theorem hintPhase_stable (cw : List String) (st : CardState) (v : String) (L' : Ledger) :
    hintPhase cw ⟨(hintPhase cw st v).1.placeholders, (hintPhase cw st v).1.hintUsed, L'⟩ v
      = (⟨(hintPhase cw st v).1.placeholders, (hintPhase cw st v).1.hintUsed, L'⟩,
         (hintPhase cw st v).2) := by
  by_cases h1 : v.data.getLast? = some '#'
  · by_cases h2 : hintNext ⟨v.data.dropLast⟩ < cw.length
    · by_cases h3 : hintNext ⟨v.data.dropLast⟩ ∈ st.placeholders
      · simp [hintPhase, if_pos h1, if_pos h2, if_pos h3]
      · have hmem : hintNext ⟨v.data.dropLast⟩
            ∈ st.placeholders ++ [hintNext ⟨v.data.dropLast⟩] := by simp
        simp [hintPhase, if_pos h1, if_pos h2, if_neg h3, hmem]
    · simp [hintPhase, if_pos h1, if_neg h2]
  · simp [hintPhase, if_neg h1]

theorem checkTyping_has_mono {cw : List String} {st : CardState} {v : String} {k t : String}
    (h : ledgerHas st.mistakes k t = true) :
    ledgerHas ((checkTyping cw st v).1).mistakes k t = true := by
  show ledgerHas (gradeList cw (hintPhase cw st v).1.placeholders (hintPhase cw st v).1.hintUsed 0
      (committedOf (hintPhase cw st v).2) (hintPhase cw st v).1.mistakes).1 k t = true
  rw [hintPhase_mistakes]
  exact gradeList_has_mono _ _ _ h

/-- Append-only ledger across any sequence of grading passes. -/
theorem runInputs_has_mono {cw : List String} {k t : String} :
    ∀ (inputs : List String) (st : CardState),
    ledgerHas st.mistakes k t = true →
    ledgerHas (runInputs cw st inputs).mistakes k t = true := by
  intro inputs
  induction inputs with
  | nil => intro st h; exact h
  | cons v vs ih =>
    intro st h
    show ledgerHas (runInputs cw (checkTyping cw st v).1 vs).mistakes k t = true
    exact ih _ (checkTyping_has_mono h)

/-- Re-running a full `checkTyping` pass on the same input string is a
no-op on the mistake ledger. -/
theorem checkTyping_ledger_idem (cw : List String) (st : CardState) (v : String) :
    ((checkTyping cw (checkTyping cw st v).1 v).1).mistakes
      = ((checkTyping cw st v).1).mistakes := by
  have e1 : (checkTyping cw st v).1
      = ⟨(hintPhase cw st v).1.placeholders, (hintPhase cw st v).1.hintUsed,
         (gradeList cw (hintPhase cw st v).1.placeholders (hintPhase cw st v).1.hintUsed 0
           (committedOf (hintPhase cw st v).2) (hintPhase cw st v).1.mistakes).1⟩ := rfl
  rw [e1]
  unfold checkTyping
  rw [hintPhase_stable cw st v]
  exact gradeList_fix _ _ _

/-! ## LRC parser lemmas -/

/-- End-time structure of the chaining loop: entry `i` gets the start
time of entry `i+1`, the last entry gets `-1`. -/
theorem lrcChain_end_time :
    ∀ (tls : List TimedLine) (i : Nat), i < tls.length →
    ((lrcChain tls)[i]?).map (fun s => s.end_time_ms)
      = some (match tls[i + 1]? with
              | some t => (t.time_ms : Int)
              | none => -1) := by
  intro tls
  induction tls with
  | nil => intro i h; simp at h
  | cons t rest ih =>
    intro i h
    cases i with
    | zero =>
      cases rest with
      | nil => simp [lrcChain]
      | cons n rs => simp [lrcChain]
    | succ j =>
      have hj : j < rest.length := by simpa using h
      simpa [lrcChain] using ih j hj

theorem dropWhile_ws_idem (l : List Char) :
    (l.dropWhile isWsChar).dropWhile isWsChar = l.dropWhile isWsChar := by
  induction l with
  | nil => simp
  | cons c t ih =>
    by_cases h : isWsChar c
    · simp [List.dropWhile_cons, h, ih]
    · simp [List.dropWhile_cons, h]

theorem trimRightC_idem (l : List Char) : trimRightC (trimRightC l) = trimRightC l := by
  unfold trimRightC
  rw [List.reverse_reverse, dropWhile_ws_idem]

theorem head_not_ws_of_dropWhile_fix {c : Char} {t : List Char}
    (h : (c :: t).dropWhile isWsChar = c :: t) : isWsChar c = false := by
  by_contra hc
  rw [Bool.not_eq_false] at hc
  rw [List.dropWhile_cons, if_pos hc] at h
  have hle : (t.dropWhile isWsChar).length ≤ t.length :=
    (List.dropWhile_sublist isWsChar).length_le
  rw [h] at hle
  simp at hle

theorem trimRightC_append_rest (l : List Char) :
    ∃ m, l = trimRightC l ++ m := by
  refine ⟨(l.reverse.takeWhile isWsChar).reverse, ?_⟩
  unfold trimRightC
  conv_lhs => rw [← List.reverse_reverse l,
    ← List.takeWhile_append_dropWhile isWsChar l.reverse]
  rw [List.reverse_append]

theorem trimLeftC_trimRightC_fix {x : List Char} (h : trimLeftC x = x) :
    trimLeftC (trimRightC x) = trimRightC x := by
  obtain ⟨m, hm⟩ := trimRightC_append_rest x
  cases hy : trimRightC x with
  | nil => simp [trimLeftC]
  | cons c t =>
    have hx : x = c :: (t ++ m) := by rw [hm, hy]; simp
    have hc : isWsChar c = false := by
      have hfix : (c :: (t ++ m)).dropWhile isWsChar = c :: (t ++ m) := by
        rw [← hx]
        exact h
      exact head_not_ws_of_dropWhile_fix hfix
    show (c :: t).dropWhile isWsChar = c :: t
    rw [List.dropWhile_cons, if_neg (by simp [hc])]

theorem trimC_idem (l : List Char) : trimC (trimC l) = trimC l := by
  unfold trimC
  have h1 : trimLeftC (trimLeftC l) = trimLeftC l := dropWhile_ws_idem l
  have h2 : trimLeftC (trimRightC (trimLeftC l)) = trimRightC (trimLeftC l) :=
    trimLeftC_trimRightC_fix h1
  rw [h2, trimRightC_idem]

theorem trimS_idem (s : String) : trimS (trimS s) = trimS s :=
  congrArg String.mk (trimC_idem s.data)

theorem mem_lrcChain_text {s : SubtitleLine} :
    ∀ {tls : List TimedLine}, s ∈ lrcChain tls → ∃ t ∈ tls, s.text = t.text := by
  intro tls
  induction tls with
  | nil => intro h; simp [lrcChain] at h
  | cons t rest ih =>
    intro h
    rcases List.mem_cons.1 h with he | hm
    · exact ⟨t, List.mem_cons_self _ _, by rw [he]⟩
    · obtain ⟨t', ht', he⟩ := ih hm
      exact ⟨t', List.mem_cons_of_mem _ ht', he⟩

/-- Every timed line collected from an LRC input carries text that is
already stripped (so stripping it again changes nothing). -/
theorem lrcCollect_text_trimmed :
    ∀ (fuel : Nat) (ls : List (List Char)), ls.length ≤ fuel →
    ∀ t ∈ lrcCollect ls, trimS t.text = t.text := by
  intro fuel
  induction fuel with
  | zero =>
    intro ls hls t ht
    have : ls = [] := List.length_eq_zero.1 (Nat.le_zero.1 hls)
    subst this
    simp [lrcCollect] at ht
  | succ n ih =>
    intro ls hls t ht
    cases ls with
    | nil => simp [lrcCollect] at ht
    | cons l rest =>
      cases rest with
      | nil =>
        cases hm : lrcMatch l with
        | none => simp [lrcCollect, hm] at ht
        | some p =>
          obtain ⟨tm, txt⟩ := p
          simp [lrcCollect, hm] at ht
          rw [ht]
          exact congrArg String.mk (trimC_idem txt)
      | cons nxt rest2 =>
        cases hm : lrcMatch l with
        | none =>
          have hmem : t ∈ lrcCollect (nxt :: rest2) := by
            simpa [lrcCollect, hm] using ht
          exact ih (nxt :: rest2) (by simp at hls ⊢; omega) t hmem
        | some p =>
          obtain ⟨tm, txt⟩ := p
          by_cases hn : (lrcMatch nxt).isSome
          · have hcases : t = ⟨tm, ⟨trimC txt⟩, none⟩ ∨ t ∈ lrcCollect (nxt :: rest2) := by
              simpa [lrcCollect, hm, hn] using ht
            rcases hcases with he | hmem
            · rw [he]
              exact congrArg String.mk (trimC_idem txt)
            · exact ih (nxt :: rest2) (by simp at hls ⊢; omega) t hmem
          · have hcases : t = ⟨tm, ⟨trimC txt⟩, some ⟨nxt⟩⟩ ∨ t ∈ lrcCollect rest2 := by
              simpa [lrcCollect, hm, hn] using ht
            rcases hcases with he | hmem
            · rw [he]
              exact congrArg String.mk (trimC_idem txt)
            · exact ih rest2 (by simp at hls ⊢; omega) t hmem

/-- Every record `parse_lrc` emits has non-empty, already-stripped
text. -/
theorem parse_lrc_text_invariant (content : String) (s : SubtitleLine)
    (hs : s ∈ parse_lrc content) : s.text ≠ "" ∧ trimS s.text = s.text := by
  unfold parse_lrc at hs
  rw [List.mem_filter] at hs
  obtain ⟨hmem, hne⟩ := hs
  refine ⟨by simpa using hne, ?_⟩
  obtain ⟨t, ht, he⟩ := mem_lrcChain_text hmem
  rw [he]
  exact lrcCollect_text_trimmed (lrcPrepLines content).length _ le_rfl t ht

/-! ## Planner lemmas -/

theorem planNotesFrom_mem (name : String) (audioLen : Nat) :
    ∀ (subs : List SubtitleLine) (n i : Nat), i < subs.length →
    trimS ((subs.getD i default).text) ≠ "" →
    planNote name (n + i) (subs.getD i default) audioLen
      ∈ planNotesFrom name n subs audioLen := by
  intro subs
  induction subs with
  | nil => intro n i h; simp at h
  | cons l rest ih =>
    intro n i hlen htext
    cases i with
    | zero =>
      rw [List.getD_cons_zero] at htext ⊢
      have hstep : planNotesFrom name n (l :: rest) audioLen
          = planNote name n l audioLen :: planNotesFrom name (n + 1) rest audioLen := by
        simp only [planNotesFrom]
        rw [if_neg htext]
      rw [hstep]
      simp
    | succ j =>
      have hj : j < rest.length := by simpa using hlen
      have htj : trimS ((rest.getD j default).text) ≠ "" := by
        simpa [List.getD_cons_succ] using htext
      have hmem := ih (n + 1) j hj htj
      have harith : n + 1 + j = n + (j + 1) := by omega
      rw [harith] at hmem
      rw [List.getD_cons_succ]
      by_cases hl : trimS l.text = ""
      · have hstep : planNotesFrom name n (l :: rest) audioLen
            = planNotesFrom name (n + 1) rest audioLen := by
          simp only [planNotesFrom]
          rw [if_pos hl]
        rw [hstep]
        exact hmem
      · have hstep : planNotesFrom name n (l :: rest) audioLen
            = planNote name n l audioLen :: planNotesFrom name (n + 1) rest audioLen := by
          simp only [planNotesFrom]
          rw [if_neg hl]
        rw [hstep]
        exact List.mem_cons_of_mem _ hmem

/-- Grading a committed-word list whose position `xs.length` is a
hint-filled placeholder records the hint marker under that position's
reference word, provided that word's key is still absent when the
position is reached. -/
theorem gradeList_marker_middle (cw : List String) (ph hu : List Nat)
    (xs ys : List String) (w : String) (L : Ledger)
    (hlen : xs.length < cw.length) (hw : w ≠ "")
    (hph : xs.length ∈ ph) (hhu : xs.length ∈ hu)
    (hnone : ledgerLookup (gradeList cw ph hu 0 xs L).1 (cw.getD xs.length "") = none) :
    ledgerHas (gradeList cw ph hu 0 (xs ++ w :: ys) L).1 (cw.getD xs.length "") "#" = true := by
  rw [gradeList_append xs (w :: ys) 0 L]
  have hz : 0 + xs.length = xs.length := by omega
  rw [hz]
  show ledgerHas (gradeList cw ph hu (xs.length + 1) ys
      (gradeStep cw ph hu xs.length w (gradeList cw ph hu 0 xs L).1).1).1
    (cw.getD xs.length "") "#" = true
  exact gradeList_has_mono ys (xs.length + 1) _
    (gradeStep_placeholder_marker hlen hw hph hhu hnone)

/-! ## Claim theorems -/

/-- C1: the mistake ledger is append-only — a recorded token survives
every later grading pass — and in the spec's scenario, grading
`"The quik fox jumps."` and then the fully corrected sentence leaves
the ledger exactly `{"quick": ["quik"]}`. -/
theorem mistake_ledger_append_only :
    (∀ (cw : List String) (st : CardState) (inputs : List String) (k t : String),
      ledgerHas st.mistakes k t = true →
      ledgerHas (runInputs cw st inputs).mistakes k t = true)
    ∧ (runInputs (refWords "The quick fox jumps.") initialCard
        ["The quik fox jumps.", "The quick fox jumps."]).mistakes
      = [("quick", ["quik"])] := by
  constructor
  · intro cw st inputs k t h
    exact runInputs_has_mono inputs st h
  · decide

theorem mistake_ledger_append_only_witness :
    ledgerHas (runInputs ["ab"] ⟨[], [], [("k", ["x"])]⟩ ["zz "]).mistakes "k" "x" = true :=
  mistake_ledger_append_only.1 ["ab"] ⟨[], [], [("k", ["x"])]⟩ ["zz "] "k" "x" (by decide)

/-- C2: in `parse_lrc`'s timestamp grammar, a 2-digit fraction `ff`
contributes `ff*10` ms and a 3-digit fraction `fff` contributes `fff`
ms, on top of `MM*60000 + SS*1000`; both `[01:02.50]` and
`[01:02.500]` parse to a 62500 ms start time. -/
theorem lrc_fraction_to_ms :
    ∀ (m1 m2 s1 s2 f1 f2 f3 : Char) (rest : List Char),
    m1.isDigit = true → m2.isDigit = true → s1.isDigit = true → s2.isDigit = true →
    f1.isDigit = true → f2.isDigit = true → f3.isDigit = true →
    lrcMatch ('[' :: m1 :: m2 :: ':' :: s1 :: s2 :: '.' :: f1 :: f2 :: ']' :: rest)
      = some ((10 * digitVal m1 + digitVal m2) * 60000
              + (10 * digitVal s1 + digitVal s2) * 1000
              + (10 * digitVal f1 + digitVal f2) * 10, rest)
    ∧ lrcMatch ('[' :: m1 :: m2 :: ':' :: s1 :: s2 :: '.' :: f1 :: f2 :: f3 :: ']' :: rest)
      = some ((10 * digitVal m1 + digitVal m2) * 60000
              + (10 * digitVal s1 + digitVal s2) * 1000
              + (100 * digitVal f1 + 10 * digitVal f2 + digitVal f3), rest)
    ∧ (parse_lrc "[01:02.50]x").map (fun s => s.start_time_ms) = [(62500 : Int)]
    ∧ (parse_lrc "[01:02.500]x").map (fun s => s.start_time_ms) = [(62500 : Int)] := by
  intro m1 m2 s1 s2 f1 f2 f3 rest h1 h2 h3 h4 h5 h6 h7
  have hbr : (']' : Char).isDigit = false := by decide
  refine ⟨?_, ?_, by decide, by decide⟩
  · simp [lrcMatch, h1, h2, h3, h4, h5, h6, hbr]
  · simp [lrcMatch, h1, h2, h3, h4, h5, h6, h7]

theorem lrc_fraction_to_ms_witness :
    lrcMatch ['[', '0', '1', ':', '0', '2', '.', '5', '0', ']'] = some (62500, [])
    ∧ lrcMatch ['[', '0', '1', ':', '0', '2', '.', '5', '0', '0', ']'] = some (62500, []) := by
  have h := lrc_fraction_to_ms '0' '1' '0' '2' '5' '0' '0' []
    (by decide) (by decide) (by decide) (by decide) (by decide) (by decide) (by decide)
  exact ⟨h.1.trans (by decide), h.2.1.trans (by decide)⟩

/-- C3 as stated is refuted by the code when the same reference word
occurs at two positions.  Sentence `"go go"`, a single pass on input
`"gi #"`: the typed mistake `"gi"` is recorded at position 0 only (the
recording-event list is `[(0, "gi")]`), position 1 is hint-filled (in
the placeholder set) and graded (committed words are
`["gi", "go"]`), no mistake was ever recorded at position 1 — yet the
ledger holds no hint marker `"#"` under `"go"`, because the marker
condition tests the word key (already holding `"gi"` from position 0),
not the position. -/
theorem hint_marker_position_cex :
    checkTyping (refWords "go go") initialCard "gi #"
      = (⟨[1], [1], [("go", ["gi"])]⟩, "gi go ", [(0, "gi")])
    ∧ committedOf "gi go " = ["gi", "go"]
    ∧ ledgerHas [("go", ["gi"])] "go" "#" = false := by
  refine ⟨?_, ?_, ?_⟩ <;> decide

/-- C3 amended: a hint-filled (placeholder) position never has a typed
mistake recorded at it, and when such a position is graded the hint
marker `"#"` is recorded under its reference word provided no ledger
entry exists under that word's key at the moment the position is
graded. -/
theorem hint_marker_word_key :
    ∀ (cw : List String) (ph hu : List Nat) (L : Ledger) (ws : List String) (i : Nat)
      (t : String),
    (i ∈ ph → (i, t) ∉ (gradeList cw ph hu 0 ws L).2)
    ∧ (i < cw.length → i < ws.length → ws.getD i "" ≠ "" → i ∈ ph → i ∈ hu →
        ledgerLookup (gradeList cw ph hu 0 (ws.take i) L).1 (cw.getD i "") = none →
        ledgerHas (gradeList cw ph hu 0 ws L).1 (cw.getD i "") "#" = true) := by
  intro cw ph hu L ws i t
  constructor
  · intro hph hmem
    exact (gradeList_event ws 0 L i t hmem).1 hph
  · intro hlen hws hne hph hhu hnone
    have htk : (ws.take i).length = i := by
      rw [List.length_take]
      omega
    have hsplit : ws = ws.take i ++ ws.getD i "" :: ws.drop (i + 1) := by
      conv_lhs => rw [← List.take_append_drop i ws]
      congr 1
      rw [List.getD_eq_getElem ws "" hws]
      exact List.drop_eq_getElem_cons hws
    have h := gradeList_marker_middle cw ph hu (ws.take i) (ws.drop (i + 1)) (ws.getD i "") L
      (by rw [htk]; exact hlen) hne (by rw [htk]; exact hph) (by rw [htk]; exact hhu)
      (by rw [htk]; exact hnone)
    rw [htk] at h
    rw [hsplit]
    exact h

theorem hint_marker_word_key_witness :
    ((1, "z") ∉ (gradeList ["a", "b"] [1] [1] 0 ["a", "b"] []).2)
    ∧ ledgerHas (gradeList ["a", "b"] [1] [1] 0 ["a", "b"] []).1 "b" "#" = true := by
  have h := hint_marker_word_key ["a", "b"] [1] [1] [] ["a", "b"] 1 "z"
  exact ⟨h.1 (by decide),
    h.2 (by decide) (by decide) (by decide) (by decide) (by decide) (by decide)⟩

/-- C4 is refuted by the code: `create_anki_deck` performs no
`start_ms < end_ms` check after resolving the sentinel.  For this LRC
input both emitted segments violate the bound — the first has equal
start and end, the second's resolved end (the 500 ms audio length)
precedes its 1000 ms start — and both are passed to the slicer
unchanged; no failure or warning path exists. -/
theorem segment_zero_length_passthrough_cex :
    (planNotes "c" (parse_lrc "[00:01.00]alpha\n[00:01.00]beta") 500).map
      (fun n => (n.start_ms, n.end_ms, decide (n.start_ms < n.end_ms)))
      = [(1000, 1000, false), (1000, 500, false)] := by decide

/-- C4 amended: after sentinel resolution no ordering check is made —
every line with non-whitespace text is emitted as a segment carrying
exactly its resolved times, including when the resolved end equals or
precedes the start (pass-through, no flagging or clamping). -/
theorem segment_passthrough :
    ∀ (name : String) (subs : List SubtitleLine) (audioLen : Nat) (i : Nat),
    i < subs.length → trimS ((subs.getD i default).text) ≠ "" →
    resolveEnd audioLen (subs.getD i default).end_time_ms
        ≤ (subs.getD i default).start_time_ms →
    ∃ np ∈ planNotes name subs audioLen,
      np.start_ms = (subs.getD i default).start_time_ms
      ∧ np.end_ms = resolveEnd audioLen (subs.getD i default).end_time_ms := by
  intro name subs audioLen i hlen htext hle
  refine ⟨planNote name i (subs.getD i default) audioLen, ?_, rfl, rfl⟩
  have h := planNotesFrom_mem name audioLen subs 0 i hlen htext
  simpa [planNotes] using h

theorem segment_passthrough_witness :
    ∃ np ∈ planNotes "w" [⟨5, 3, "x", none⟩] 7,
      np.start_ms = 5 ∧ np.end_ms = 3 := by
  have h := segment_passthrough "w" [⟨5, 3, "x", none⟩] 7 0 (by decide) (by decide) (by decide)
  simpa using h

/-- C5: the end time of timed line `i` is the start time of timed line
`i+1` and the last timed line's end time is the sentinel `-1`, which
the planner resolves to the audio duration; in the spec's scenario the
third segment of a three-line LRC file with audio length 135000 ms is
`[120000, 135000)`. -/
theorem lrc_end_time_chaining :
    (∀ (tls : List TimedLine) (i : Nat), i < tls.length →
      ((lrcChain tls)[i]?).map (fun s => s.end_time_ms)
        = some (match tls[i + 1]? with
                | some t => (t.time_ms : Int)
                | none => -1))
    ∧ ((planNotes "cfg" (parse_lrc "[00:10.00]alpha\n[01:00.00]beta\n[02:00.00]gamma")
          135000)[2]?).map (fun n => (n.start_ms, n.end_ms))
      = some (120000, 135000) :=
  ⟨lrcChain_end_time, by decide⟩

theorem lrc_end_time_chaining_witness :
    ((lrcChain [⟨3, "a", none⟩, ⟨7, "b", none⟩])[0]?).map (fun s => s.end_time_ms)
      = some (7 : Int) :=
  (lrc_end_time_chaining.1 [⟨3, "a", none⟩, ⟨7, "b", none⟩] 0 (by decide)).trans (by decide)

/-- C6: grading is idempotent on the ledger — running `checkTyping` on
the same input string twice in succession leaves the ledger of the
first pass unchanged. -/
theorem grading_ledger_idempotent (cw : List String) (st : CardState) (v : String) :
    ((checkTyping cw (checkTyping cw st v).1 v).1).mistakes
      = ((checkTyping cw st v).1).mistakes :=
  checkTyping_ledger_idem cw st v

/-- An SRT input whose first record's text block is a single space. -/
def srtWhitespaceBlock : String :=
  "1\n00:00:00,000 --> 00:00:01,000\n \n\n2\n00:00:01,000 --> 00:00:02,000\nhi\n"

/-- C7 is refuted by the code for the SRT grammar: a record whose text
block is whitespace-only is emitted with empty text — `parse_srt` has
no empty-text filter. -/
theorem empty_text_record_cex :
    ((parse_srt srtWhitespaceBlock)[0]?).map (fun s => s.text) = some ""
    ∧ (parse_srt srtWhitespaceBlock).length = 2 := by
  refine ⟨?_, ?_⟩ <;> decide

/-- C7 amended: the LRC grammar never emits a record whose text is
empty after trimming; the SRT grammar does not guarantee this — a
whitespace-only text block yields a record with empty text. -/
theorem nonempty_text_amended :
    (∀ (content : String) (s : SubtitleLine), s ∈ parse_lrc content →
      trimS s.text ≠ "")
    ∧ (parse_srt srtWhitespaceBlock).map (fun s => s.text) = ["", "hi"] := by
  constructor
  · intro content s hs
    obtain ⟨hne, hfix⟩ := parse_lrc_text_invariant content s hs
    rw [hfix]
    exact hne
  · decide

theorem nonempty_text_amended_witness :
    trimS (⟨1000, -1, "zz", none⟩ : SubtitleLine).text ≠ "" :=
  nonempty_text_amended.1 "[00:01.00]zz" ⟨1000, -1, "zz", none⟩ (by decide)

/-- The text used to refute the spec's filename formula: its first 20
characters contain dots, so filtering before truncating differs from
truncating before filtering. -/
def dottedText : String := "a.b.c.d.e.f.g.h.i.j.k.l.m.n"

/-- Modelled from the spec's words, for comparison with the code's
filename: the sanitized text-prefix keeps the allowed characters of
the FIRST 20 characters of the line text, and the index is the
segment's 1-based sequence position among emitted segments. -/
def specClipFilename (cfg : String) (seqIdx : Nat) (text : String) : String :=
  cfg ++ "_" ++ pad3 seqIdx ++ "_"
    ++ ⟨(text.data.take 20).filter (fun c => c.isAlphanum || c == ' ' || c == '_' || c == '-')⟩
    ++ ".mp3"

/-- C8 is refuted by the code on both counts: the code filters the
WHOLE text and then truncates to 20 characters (not the reverse), and
its index counts skipped empty-text lines (not the emitted segment's
sequence position).  With one skipped empty line followed by a dotted
text, the code produces `npr_002_abcdefghijklmn.mp3` while the spec's
formula yields `npr_001_abcdefghij.mp3`. -/
theorem clip_filename_cex :
    (planNotes "npr" [⟨0, 1000, "", none⟩, ⟨1000, 2000, dottedText, none⟩] 999).map
        (fun n => n.filename) = ["npr_002_abcdefghijklmn.mp3"]
    ∧ specClipFilename "npr" 1 dottedText = "npr_001_abcdefghij.mp3"
    ∧ ("npr_002_abcdefghijklmn.mp3" : String) ≠ "npr_001_abcdefghij.mp3" := by
  refine ⟨?_, ?_, ?_⟩ <;> decide

/-- C8 amended: the clip filename of the line at parse position `i`
(0-based, with skipped empty-text lines still counted) is
`{config}_{i+1:03d}_{prefix}.mp3` where the prefix is the first 20
characters of the whole text after keeping only
alphanumerics/space/underscore/hyphen and stripping trailing
whitespace. -/
theorem clip_filename_amended :
    ∀ (name : String) (subs : List SubtitleLine) (audioLen : Nat) (i : Nat),
    i < subs.length → trimS ((subs.getD i default).text) ≠ "" →
    ∃ np ∈ planNotes name subs audioLen,
      np.filename = name ++ "_" ++ pad3 (i + 1) ++ "_"
        ++ takeStr 20 (sanitizeText (subs.getD i default).text) ++ ".mp3" := by
  intro name subs audioLen i hlen htext
  refine ⟨planNote name i (subs.getD i default) audioLen, ?_, rfl⟩
  have h := planNotesFrom_mem name audioLen subs 0 i hlen htext
  simpa [planNotes] using h

theorem clip_filename_amended_witness :
    ∃ np ∈ planNotes "w" [⟨0, 9, "ok", none⟩] 9,
      np.filename = "w" ++ "_" ++ pad3 1 ++ "_" ++ takeStr 20 (sanitizeText "ok") ++ ".mp3" := by
  have h := clip_filename_amended "w" [⟨0, 9, "ok", none⟩] 9 0 (by decide) (by decide)
  simpa using h

/-- C9 is refuted by the code: `parse_lrc` raises nothing — an input
whose first line is neither timestamp-prefixed nor a translation of a
preceding timed line is silently skipped, and the remaining records
are returned. -/
theorem lrc_no_abort_cex :
    parse_lrc "hello\n[00:01.00]hi" = [⟨1000, -1, "hi", none⟩] := by decide

/-- C9 amended: an unclassifiable line is silently dropped — the
timed-line collection of `b :: ls` equals that of `ls` whenever `b`
does not match the timestamp grammar — and `parse_lrc` still returns
the records of the classifiable remainder. -/
theorem lrc_skip_unclassifiable :
    (∀ (b : List Char) (ls : List (List Char)), lrcMatch b = none →
      lrcCollect (b :: ls) = lrcCollect ls)
    ∧ parse_lrc "xx\n[00:02.00]yo" = [⟨2000, -1, "yo", none⟩] := by
  constructor
  · intro b ls hb
    cases ls with
    | nil => simp [lrcCollect, hb]
    | cons nxt rest => simp [lrcCollect, hb]
  · decide

theorem lrc_skip_unclassifiable_witness :
    lrcCollect (['o', 'k'] :: ["[00:01.00]q".data]) = lrcCollect ["[00:01.00]q".data] :=
  lrc_skip_unclassifiable.1 ['o', 'k'] ["[00:01.00]q".data] (by decide)

/-- C10: the ledger is keyed by the reference word's string, not by
position — (a) every recording event at position `j` lands in the
final ledger under the word `cw[j]`, so equal words at different
positions share one entry (the concrete run on `"go go"` shows both
positions' mistakes accumulating under the single key `"go"`); (b) at
a placeholder position the hint marker is suppressed whenever any
entry already exists under that word's key (grading changes nothing);
(c) the back side flags every sentence position whose cleaned word
matches a ledger key, not only the mistaken position. -/
theorem ledger_word_keyed :
    (∀ (cw : List String) (ph hu : List Nat) (ws : List String) (L : Ledger) (j : Nat)
       (t : String),
      (j, t) ∈ (gradeList cw ph hu 0 ws L).2 →
      ledgerHas (gradeList cw ph hu 0 ws L).1 (cw.getD j "") t = true)
    ∧ (∀ (cw : List String) (ph hu : List Nat) (i : Nat) (w : String) (L : Ledger),
        i ∈ ph → hasKey L (cw.getD i "") = true →
        (gradeStep cw ph hu i w L).1 = L)
    ∧ (∀ (ws keys : List String) (i : Nat) (k : String),
        i < ws.length → k ∈ keys → cleanBack (ws.getD i "") = cleanBack k →
        i ∈ backMistakeIndices ws keys)
    ∧ gradeList ["go", "go"] [] [] 0 ["gi", "ga"] []
        = ([("go", ["gi", "ga"])], [(0, "gi"), (1, "ga")]) := by
  refine ⟨?_, ?_, ?_, by decide⟩
  · intro cw ph hu ws L j t h
    exact (gradeList_event ws 0 L j t h).2
  · intro cw ph hu i w L hph hkey
    exact gradeStep_placeholder_fix hph hkey
  · intro ws keys i k hlen hk he
    unfold backMistakeIndices
    rw [List.mem_filter, List.mem_range]
    refine ⟨hlen, ?_⟩
    rw [List.any_eq_true]
    exact ⟨k, hk, beq_iff_eq.mpr he⟩

theorem ledger_word_keyed_witness :
    ledgerHas (gradeList ["go", "go"] [] [] 0 ["gi", "ga"] []).1 "go" "ga" = true
    ∧ (gradeStep ["go"] [0] [0] 0 "gg" [("go", ["gx"])]).1 = [("go", ["gx"])]
    ∧ 1 ∈ backMistakeIndices ["go", "go."] ["go"] := by
  have h := ledger_word_keyed
  exact ⟨h.1 ["go", "go"] [] [] ["gi", "ga"] [] 1 "ga" (by decide),
    h.2.1 ["go"] [0] [0] 0 "gg" [("go", ["gx"])] (by decide) (by decide),
    h.2.2.1 ["go", "go."] ["go"] 1 "go" (by decide) (by decide) (by decide)⟩

end Sub2Anki
